import Mathlib

/-!
Verification of the classification + aggregation pipeline of
`organize_sources.py` (repository `Shebyyy/sources-dart`).

Python strings are modelled as `List Char`; Python's `str.lower` is modelled
with `Char.toLower` (they agree on ASCII input), `str.strip()` with dropping
`Char.isWhitespace` characters from both ends, and single-character
`str.replace` with a character map.  JSON source documents are modelled by a
structure carrying exactly the fields the script reads (`type`, `sourceName`,
`name`), an opaque payload standing for all other fields, and the metadata the
script attaches.  Dictionaries with insertion order (Python `dict` /
`defaultdict`) are modelled as association lists.
-/

/-- Python strings, modelled as lists of characters. -/
abbrev PyStr := List Char

/-- Python `s.lower()` (ASCII model, matching `Char.toLower`). -/
def pyLower (s : PyStr) : PyStr := s.map Char.toLower

/-- Python `s.strip()`: remove leading and trailing whitespace. -/
def pyStrip (s : PyStr) : PyStr :=
  ((s.dropWhile Char.isWhitespace).reverse.dropWhile Char.isWhitespace).reverse

/-- Python `s.replace(a, b)` for single characters `a`, `b`. -/
def replaceChar (a b : Char) (s : PyStr) : PyStr :=
  s.map (fun c => if c = a then b else c)

/-- The loop `while "__" in type_clean: type_clean = type_clean.replace("__", "_")`
(lines 32-33): its fixpoint collapses every run of consecutive underscores to a
single underscore. -/
def collapseUnder : PyStr → PyStr
  | [] => []
  | [c] => [c]
  | a :: b :: rest =>
      if a = '_' ∧ b = '_' then collapseUnder (b :: rest)
      else a :: collapseUnder (b :: rest)

/-- The sanitization pipeline building `type_clean` (lines 28-33): lower-case,
strip, replace `/`, ` `, `-` by `_` (in the source's order), collapse runs of
underscores. -/
def type_clean (type_str : PyStr) : PyStr :=
  collapseUnder (replaceChar '-' '_' (replaceChar ' ' '_'
    (replaceChar '/' '_' (pyStrip (pyLower type_str)))))

/-- `normalize_type` (lines 22-35).  `if not type_str` on a `str` is the
emptiness test. -/
def normalize_type (type_str : PyStr) : PyStr :=
  if type_str = [] then "other".toList
  else type_clean type_str

/-- A raw JSON source document: the fields the script reads (`type`,
`sourceName`, `name`), plus an opaque payload standing for all other fields. -/
structure RawDoc where
  type? : Option PyStr
  sourceName? : Option PyStr
  name? : Option PyStr
  payload : Nat
deriving DecidableEq, Repr

/-- The `_metadata` object attached at lines 187-191. -/
structure Meta where
  original_file : PyStr
  repository : PyStr
  original_type : PyStr
deriving DecidableEq, Repr

/-- A document after ingestion: the raw document, the attached `_metadata`,
and the top-level `repository` field (line 231), set only when the document is
copied into the combined grouping. -/
structure ProcDoc where
  raw : RawDoc
  meta : Meta
  repository? : Option PyStr
deriving DecidableEq, Repr

/-- Line 183: `source_type = json_data.get("type", "other")`. -/
def sourceTypeOf (doc : RawDoc) : PyStr := doc.type?.getD ("other".toList)

/-- Lines 187-191: attach `_metadata` (`original_file`, `repository`,
`original_type`) to the document. -/
def attachMetadata (repo path : PyStr) (doc : RawDoc) : ProcDoc :=
  { raw := doc
    meta := { original_file := path, repository := repo,
              original_type := sourceTypeOf doc }
    repository? := none }

/-- A category-keyed mapping (Python `defaultdict(list)`), as an association
list in insertion order. -/
abbrev CatMap := List (PyStr × List ProcDoc)

/-- The two-level `organized_data` structure: repository → category →
documents, in insertion order. -/
abbrev Org := List (PyStr × CatMap)

/-- Append `d` under key `cat`, creating the key at the end if absent
(`defaultdict` access followed by `append`). -/
def addToCat (cats : CatMap) (cat : PyStr) (d : ProcDoc) : CatMap :=
  match cats with
  | [] => [(cat, [d])]
  | (c, ds) :: rest =>
      if c = cat then (c, ds ++ [d]) :: rest
      else (c, ds) :: addToCat rest cat d

/-- `organized_data[repo_name][normalized_type].append(json_data)` (line 194). -/
def addToOrg (org : Org) (repo cat : PyStr) (d : ProcDoc) : Org :=
  match org with
  | [] => [(repo, [(cat, [d])])]
  | (r, cats) :: rest =>
      if r = repo then (r, addToCat cats cat d) :: rest
      else (r, cats) :: addToOrg rest repo cat d

/-- First-match lookup in a category map; missing keys give the empty list. -/
def lookupCat (cats : CatMap) (k : PyStr) : List ProcDoc :=
  match cats with
  | [] => []
  | (c, ds) :: rest => if c = k then ds else lookupCat rest k

/-- The keys of a category map. -/
def catKeys (cats : CatMap) : List PyStr := cats.map Prod.fst

/-- The mutable aggregation state of `organize_sources` (lines 150-156):
`organized_data` and the three counters. -/
structure AggState where
  org : Org
  files_found : Nat
  files_processed : Nat
  files_failed : Nat
deriving DecidableEq, Repr

def initState : AggState := ⟨[], 0, 0, 0⟩

/-- Lines 171-195, one file: a file that failed to parse (`json_data is None`)
only bumps `total_files_failed`; a parsed document is processed via
`attachMetadata` and appended to the grouping. -/
def processFile (repo : PyStr) (st : AggState) (file : PyStr × Option RawDoc) :
    AggState :=
  match file.2 with
  | none => { st with files_failed := st.files_failed + 1 }
  | some doc =>
      { st with
        org := addToOrg st.org repo (normalize_type (sourceTypeOf doc))
                 (attachMetadata repo file.1 doc)
        files_processed := st.files_processed + 1 }

/-- Lines 158-195, one repository: `total_files_found += len(json_files)`,
then process each file in order. -/
def processRepo (st : AggState) (r : PyStr × List (PyStr × Option RawDoc)) :
    AggState :=
  r.2.foldl (processFile r.1)
    { st with files_found := st.files_found + r.2.length }

/-- The ingestion input: for each repository (in scan order) the list of
discovered JSON files, each either parsed (`some doc`) or failed (`none`). -/
abbrev RunInput := List (PyStr × List (PyStr × Option RawDoc))

/-- The whole ingestion phase (lines 150-195). -/
def ingestAll (input : RunInput) : AggState :=
  input.foldl processRepo initState

/-- The sort key of line 221: `x.get("sourceName", "").lower()`. -/
def srcNameKey (d : ProcDoc) : PyStr := pyLower (d.raw.sourceName?.getD [])

/-- The per-(repository, category) ordering relation used at line 221. -/
def bySourceName (x y : ProcDoc) : Prop := srcNameKey x ≤ srcNameKey y

/-- First component of the line 246 sort key: `x.get("repository", "")`. -/
def repoKey (d : ProcDoc) : PyStr := d.repository?.getD []

/-- Second component of the line 246 sort key:
`x.get("sourceName", x.get("name", "")).lower()` — note the fallback to the
`name` field. -/
def combNameKey (d : ProcDoc) : PyStr :=
  pyLower (d.raw.sourceName?.getD (d.raw.name?.getD []))

/-- The combined ordering of line 246: Python tuple comparison of
`(repository, sourceName-or-name lowered)`. -/
def byRepoThenName (x y : ProcDoc) : Prop :=
  repoKey x < repoKey y ∨ (repoKey x = repoKey y ∧ combNameKey x ≤ combNameKey y)

/-- The combined ordering as the specification states it: secondary key
case-insensitive `sourceName` with a missing `sourceName` treated as the
empty string (no `name` fallback). -/
def byRepoThenNameSpec (x y : ProcDoc) : Prop :=
  repoKey x < repoKey y ∨
    (repoKey x = repoKey y ∧
      pyLower (x.raw.sourceName?.getD []) ≤ pyLower (y.raw.sourceName?.getD []))

/-- Ordering of category entries: `sorted(dict.items())` (lines 216, 242)
compares `(key, value)` tuples; the keys are distinct, so this is ordering by
key. -/
def byCatKey (a b : PyStr × List ProcDoc) : Prop := a.1 ≤ b.1

instance : DecidableRel bySourceName :=
  fun x y => inferInstanceAs (Decidable (srcNameKey x ≤ srcNameKey y))

instance : DecidableRel byRepoThenName :=
  fun x y => inferInstanceAs (Decidable
    (repoKey x < repoKey y ∨ (repoKey x = repoKey y ∧ combNameKey x ≤ combNameKey y)))

instance : DecidableRel byRepoThenNameSpec :=
  fun x y => inferInstanceAs (Decidable
    (repoKey x < repoKey y ∨ (repoKey x = repoKey y ∧
      pyLower (x.raw.sourceName?.getD []) ≤ pyLower (y.raw.sourceName?.getD []))))

instance : DecidableRel byCatKey :=
  fun a b => inferInstanceAs (Decidable (a.1 ≤ b.1))

/-- Lines 216-224 for one repository: iterate categories in sorted key order
and sort each document list by `srcNameKey`. -/
def sortRepoCats (cats : CatMap) : CatMap :=
  (List.insertionSort byCatKey cats).map
    (fun ce => (ce.1, List.insertionSort bySourceName ce.2))

/-- The grouping after finalization: every repository's category lists sorted. -/
def finalizeOrg (org : Org) : Org :=
  org.map (fun re => (re.1, sortRepoCats re.2))

/-- Line 231: `source["repository"] = repo_name`. -/
def setRepository (repo : PyStr) (d : ProcDoc) : ProcDoc :=
  { d with repository? := some repo }

/-- Lines 229-232 for one already-sorted document list: tag each document with
the repository and append it to `combined_by_type[source_type]`. -/
def addListToCombined (comb : CatMap) (cat repo : PyStr)
    (ds : List ProcDoc) : CatMap :=
  ds.foldl (fun cb d => addToCat cb cat (setRepository repo d)) comb

/-- Lines 216-232 for one repository entry (categories already in sorted
order, lists already sorted). -/
def addRepoToCombined (comb : CatMap) (re : PyStr × CatMap) : CatMap :=
  re.2.foldl (fun cb ce => addListToCombined cb ce.1 re.1 ce.2) comb

/-- `combined_by_type` as it stands after the loop of lines 210-232. -/
def combinedRaw (org : Org) : CatMap :=
  (finalizeOrg org).foldl addRepoToCombined []

/-- Lines 242-249: iterate combined categories in sorted key order and sort
each list by the `(repository, sourceName-or-name)` key. -/
def finalCombined (org : Org) : CatMap :=
  (List.insertionSort byCatKey (combinedRaw org)).map
    (fun ce => (ce.1, List.insertionSort byRepoThenName ce.2))

/-- The per-repository grouping a complete run produces. -/
def finalGrouping (input : RunInput) : Org :=
  finalizeOrg (ingestAll input).org

/-- The combined grouping a complete run produces. -/
def finalCombinedOf (input : RunInput) : CatMap :=
  finalCombined (ingestAll input).org

/-- The keyword tests of the specification's normalization cascade, applied to
the lower-cased value. -/
def kwMatch (s : PyStr) : Prop :=
  "anime".toList <:+: pyLower s ∨ "manga".toList <:+: pyLower s ∨
  "novel".toList <:+: pyLower s ∨ "movie".toList <:+: pyLower s ∨
  "show".toList <:+: pyLower s

instance (s : PyStr) : Decidable (kwMatch s) := by
  unfold kwMatch
  infer_instance

/-- The relation "no two adjacent underscores", used to characterize the
fixpoint of the underscore-collapsing loop. -/
def noDD (a b : Char) : Prop := ¬(a = '_' ∧ b = '_')

/-- Concrete documents and run inputs used to instantiate the universally
quantified theorems below. -/
def wDoc1 : RawDoc := ⟨none, some "b".toList, none, 0⟩

def wDoc2 : RawDoc := ⟨none, some "A".toList, none, 1⟩

def wInput : RunInput :=
  [("r".toList, [("f".toList, some wDoc1), ("g".toList, some wDoc2)])]

def wP1 : ProcDoc := ⟨wDoc1, ⟨"f".toList, "r".toList, "other".toList⟩, none⟩

def wP2 : ProcDoc := ⟨wDoc2, ⟨"g".toList, "r".toList, "other".toList⟩, none⟩

def cDoc1 : RawDoc := ⟨none, some "b".toList, none, 0⟩

def cDoc2 : RawDoc := ⟨none, none, some "z".toList, 1⟩

def cInput : RunInput :=
  [("r".toList, [("f1".toList, some cDoc1), ("f2".toList, some cDoc2)])]

def cQ1 : ProcDoc :=
  ⟨cDoc1, ⟨"f1".toList, "r".toList, "other".toList⟩, some "r".toList⟩

def cQ2 : ProcDoc :=
  ⟨cDoc2, ⟨"f2".toList, "r".toList, "other".toList⟩, some "r".toList⟩

/-! Ordering instances: the three sort relations are total and transitive. -/

instance : IsTotal ProcDoc bySourceName :=
  ⟨fun a b => le_total (srcNameKey a) (srcNameKey b)⟩

instance : IsTrans ProcDoc bySourceName :=
  ⟨fun _ _ _ hab hbc => le_trans hab hbc⟩

instance : IsTotal (PyStr × List ProcDoc) byCatKey :=
  ⟨fun a b => le_total a.1 b.1⟩

instance : IsTrans (PyStr × List ProcDoc) byCatKey :=
  ⟨fun _ _ _ hab hbc => le_trans hab hbc⟩

instance : IsTotal ProcDoc byRepoThenName := by
  constructor
  intro a b
  unfold byRepoThenName
  rcases lt_trichotomy (repoKey a) (repoKey b) with h | h | h
  · exact Or.inl (Or.inl h)
  · rcases le_total (combNameKey a) (combNameKey b) with h' | h'
    · exact Or.inl (Or.inr ⟨h, h'⟩)
    · exact Or.inr (Or.inr ⟨h.symm, h'⟩)
  · exact Or.inr (Or.inl h)

instance : IsTrans ProcDoc byRepoThenName := by
  constructor
  intro a b c hab hbc
  unfold byRepoThenName at *
  rcases hab with h1 | ⟨h1, h1'⟩ <;> rcases hbc with h2 | ⟨h2, h2'⟩
  · exact Or.inl (lt_trans h1 h2)
  · exact Or.inl (h2 ▸ h1)
  · exact Or.inl (h1 ▸ h2)
  · exact Or.inr ⟨h1.trans h2, h1'.trans h2'⟩

/-! Character-level facts about the ASCII model of `str.lower`. -/

theorem toLower_cases (c : Char) :
    c.toLower = c ∨
      (65 ≤ c.toNat ∧ c.toNat ≤ 90 ∧ (c.toLower).toNat = c.toNat + 32) := by
  by_cases h : c.toNat ≥ 65 ∧ c.toNat ≤ 90
  · right
    refine ⟨h.1, h.2, ?_⟩
    have hlow : c.toLower = Char.ofNat (c.toNat + 32) := by
      simp [Char.toLower, h]
    have hv : (c.toNat + 32).isValidChar := Or.inl (by omega)
    rw [hlow]
    show (Char.ofNat (c.toNat + 32)).toNat = c.toNat + 32
    unfold Char.ofNat
    rw [dif_pos hv]
    rfl
  · left
    simp [Char.toLower, h]

theorem toLower_eq_self_of_gt (c : Char) (h : ¬(65 ≤ c.toNat ∧ c.toNat ≤ 90)) :
    c.toLower = c := by
  simp [Char.toLower, h]

theorem toLower_toLower (c : Char) : c.toLower.toLower = c.toLower := by
  rcases toLower_cases c with h | ⟨_, h90, hplus⟩
  · rw [h, h]
  · apply toLower_eq_self_of_gt
    omega

theorem ws_char_cases (c : Char) (h : c.isWhitespace) :
    c = ' ' ∨ c = '\t' ∨ c = '\r' ∨ c = '\n' := by
  simpa [Char.isWhitespace, or_assoc] using h

theorem toLower_of_isWhitespace (c : Char) (h : c.isWhitespace) :
    c.toLower = c := by
  rcases ws_char_cases c h with h' | h' | h' | h' <;> subst h' <;> decide

theorem not_isWhitespace_toLower (c : Char) (h : ¬ c.isWhitespace) :
    ¬ (c.toLower).isWhitespace := by
  rcases toLower_cases c with hc | ⟨_, _, hplus⟩
  · rwa [hc]
  · intro hws
    rcases ws_char_cases _ hws with h' | h' | h' | h' <;> rw [h'] at hplus <;>
      simp only [show (' ').toNat = 32 from rfl, show ('\t').toNat = 9 from rfl,
        show ('\r').toNat = 13 from rfl, show ('\n').toNat = 10 from rfl] at hplus <;>
      omega

/-! Facts about `collapseUnder`: it preserves the first and last characters,
its result never has two adjacent underscores, and it is the identity on such
lists. -/

theorem collapse_cons_cons (a b : Char) (rest : PyStr) :
    collapseUnder (a :: b :: rest) =
      if a = '_' ∧ b = '_' then collapseUnder (b :: rest)
      else a :: collapseUnder (b :: rest) := by
  simp [collapseUnder]

theorem collapse_head? : ∀ l : PyStr, (collapseUnder l).head? = l.head?
  | [] => rfl
  | [_] => rfl
  | a :: b :: rest => by
      rw [collapse_cons_cons]
      by_cases h : a = '_' ∧ b = '_'
      · rw [if_pos h, collapse_head? (b :: rest)]
        simp [h.1, h.2]
      · rw [if_neg h]
        simp

theorem collapse_ne_nil : ∀ l : PyStr, l ≠ [] → collapseUnder l ≠ [] := by
  intro l hl hc
  have h1 := collapse_head? l
  rw [hc] at h1
  cases l with
  | nil => exact hl rfl
  | cons a t => simp at h1

theorem collapse_getLast? : ∀ l : PyStr, (collapseUnder l).getLast? = l.getLast?
  | [] => rfl
  | [_] => rfl
  | a :: b :: rest => by
      rw [collapse_cons_cons]
      by_cases h : a = '_' ∧ b = '_'
      · rw [if_pos h, collapse_getLast? (b :: rest)]
        simp
      · rw [if_neg h]
        obtain ⟨t, ht⟩ : ∃ t, collapseUnder (b :: rest) = b :: t := by
          have h1 := collapse_head? (b :: rest)
          cases hc : collapseUnder (b :: rest) with
          | nil => exact absurd hc (collapse_ne_nil _ (by simp))
          | cons x xs =>
            rw [hc] at h1
            simp at h1
            exact ⟨xs, by rw [h1]⟩
        rw [ht, List.getLast?_cons_cons, ← ht, collapse_getLast? (b :: rest)]
        simp

theorem collapse_mem {c : Char} : ∀ l : PyStr, c ∈ collapseUnder l → c ∈ l
  | [] => by simp [collapseUnder]
  | [d] => by simp [collapseUnder]
  | a :: b :: rest => by
      rw [collapse_cons_cons]
      by_cases h : a = '_' ∧ b = '_'
      · rw [if_pos h]
        intro hm
        exact List.mem_cons_of_mem a (collapse_mem (b :: rest) hm)
      · rw [if_neg h]
        intro hm
        rcases List.mem_cons.1 hm with h1 | h1
        · exact h1 ▸ List.mem_cons_self _ _
        · exact List.mem_cons_of_mem a (collapse_mem (b :: rest) h1)

theorem collapse_chain : ∀ l : PyStr, List.Chain' noDD (collapseUnder l)
  | [] => by simp [collapseUnder]
  | [c] => by simp [collapseUnder]
  | a :: b :: rest => by
      rw [collapse_cons_cons]
      by_cases h : a = '_' ∧ b = '_'
      · rw [if_pos h]
        exact collapse_chain (b :: rest)
      · rw [if_neg h]
        rw [List.chain'_cons']
        refine ⟨?_, collapse_chain (b :: rest)⟩
        intro y hy
        rw [collapse_head? (b :: rest)] at hy
        simp at hy
        subst hy
        exact h

theorem collapse_eq_self_of_chain :
    ∀ l : PyStr, List.Chain' noDD l → collapseUnder l = l
  | [], _ => rfl
  | [_], _ => rfl
  | a :: b :: rest, hch => by
      rw [List.chain'_cons] at hch
      rw [collapse_cons_cons, if_neg (hch.1 : ¬(a = '_' ∧ b = '_'))]
      rw [collapse_eq_self_of_chain (b :: rest) hch.2]

theorem collapse_idem (l : PyStr) :
    collapseUnder (collapseUnder l) = collapseUnder l :=
  collapse_eq_self_of_chain _ (collapse_chain l)

/-! Facts about `pyStrip` and the sanitization pipeline `type_clean`. -/

theorem dropWhile_head_not (p : Char → Bool) (l : PyStr) (c : Char)
    (h : (l.dropWhile p).head? = some c) : ¬ p c := by
  have h' := List.head?_dropWhile_not p l
  rw [h] at h'
  simp only [] at h'
  simp [h']

theorem dropWhile_eq_self (p : Char → Bool) (l : PyStr)
    (h : ∀ c, l.head? = some c → ¬ p c) : l.dropWhile p = l := by
  cases l with
  | nil => rfl
  | cons a t =>
      rw [List.dropWhile_cons, if_neg]
      simpa using h a rfl

theorem mem_dropWhile_of_not (p : Char → Bool) (l : PyStr) (c : Char)
    (hc : c ∈ l) (hnp : ¬ p c) : c ∈ l.dropWhile p := by
  have hsplit : c ∈ l.takeWhile p ++ l.dropWhile p := by
    rw [List.takeWhile_append_dropWhile]
    exact hc
  rcases List.mem_append.1 hsplit with h1 | h1
  · exact absurd (List.mem_takeWhile_imp h1) hnp
  · exact h1

theorem strip_subset (l : PyStr) (c : Char) (hc : c ∈ pyStrip l) : c ∈ l := by
  unfold pyStrip at hc
  rw [List.mem_reverse] at hc
  have h1 := (List.dropWhile_sublist Char.isWhitespace).mem hc
  rw [List.mem_reverse] at h1
  exact (List.dropWhile_sublist Char.isWhitespace).mem h1

theorem strip_mem (l : PyStr) (c : Char) (hc : c ∈ l)
    (hnw : ¬ c.isWhitespace) : c ∈ pyStrip l := by
  unfold pyStrip
  rw [List.mem_reverse]
  apply mem_dropWhile_of_not _ _ _ _ (by simpa using hnw)
  rw [List.mem_reverse]
  exact mem_dropWhile_of_not _ _ _ hc (by simpa using hnw)

theorem strip_ne_nil (l : PyStr) (c : Char) (hc : c ∈ l)
    (hnw : ¬ c.isWhitespace) : pyStrip l ≠ [] := by
  intro h
  have hm := strip_mem l c hc hnw
  rw [h] at hm
  simp at hm

theorem strip_head_not_ws (l : PyStr) (c : Char)
    (h : (pyStrip l).head? = some c) : ¬ c.isWhitespace := by
  unfold pyStrip at h
  have hpre :
      ((l.dropWhile Char.isWhitespace).reverse.dropWhile Char.isWhitespace).reverse
        <+: l.dropWhile Char.isWhitespace := by
    rw [← List.reverse_suffix, List.reverse_reverse]
    exact List.dropWhile_suffix _
  obtain ⟨t, ht⟩ := hpre
  cases hxr :
      ((l.dropWhile Char.isWhitespace).reverse.dropWhile Char.isWhitespace).reverse with
  | nil => rw [hxr] at h; simp at h
  | cons y ys =>
      rw [hxr] at h
      simp only [List.head?_cons, Option.some.injEq] at h
      rw [hxr] at ht
      have hdh : (l.dropWhile Char.isWhitespace).head? = some y := by
        rw [← ht]; rfl
      have hy := dropWhile_head_not _ _ _ hdh
      rwa [h] at hy

theorem strip_getLast_not_ws (l : PyStr) (c : Char)
    (h : (pyStrip l).getLast? = some c) : ¬ c.isWhitespace := by
  unfold pyStrip at h
  rw [List.getLast?_reverse] at h
  exact dropWhile_head_not _ _ _ h

theorem strip_eq_self (l : PyStr)
    (hh : ∀ c, l.head? = some c → ¬ c.isWhitespace)
    (hl : ∀ c, l.getLast? = some c → ¬ c.isWhitespace) : pyStrip l = l := by
  have h1 : l.dropWhile Char.isWhitespace = l :=
    dropWhile_eq_self _ _ (fun c hc => by simpa using hh c hc)
  have h2 : l.reverse.dropWhile Char.isWhitespace = l.reverse :=
    dropWhile_eq_self _ _ (fun c hc => by
      rw [List.head?_reverse] at hc
      simpa using hl c hc)
  unfold pyStrip
  rw [h1, h2, List.reverse_reverse]

theorem strip_eq_nil_of_all_ws (l : PyStr)
    (h : ∀ c ∈ l, c.isWhitespace) : pyStrip l = [] := by
  have h1 : l.dropWhile Char.isWhitespace = [] :=
    List.dropWhile_eq_nil_iff.2 (fun x hx => by simpa using h x hx)
  unfold pyStrip
  rw [h1]
  rfl

theorem replaceChar_mem (a b : Char) (s : PyStr) (c : Char)
    (h : c ∈ replaceChar a b s) : c = b ∨ (c ∈ s ∧ c ≠ a) := by
  unfold replaceChar at h
  rcases List.mem_map.1 h with ⟨c0, hc0, he⟩
  by_cases h' : c0 = a
  · rw [if_pos h'] at he
    exact Or.inl he.symm
  · rw [if_neg h'] at he
    exact Or.inr ⟨he ▸ hc0, he ▸ h'⟩

theorem type_clean_char_source (x : PyStr) (c : Char)
    (hc : c ∈ type_clean x) :
    c = '_' ∨ (c ∈ pyStrip (pyLower x) ∧ c ≠ '/' ∧ c ≠ ' ' ∧ c ≠ '-') := by
  unfold type_clean at hc
  have h1 := collapse_mem _ hc
  rcases replaceChar_mem _ _ _ _ h1 with h2 | ⟨h2, hne1⟩
  · exact Or.inl h2
  rcases replaceChar_mem _ _ _ _ h2 with h3 | ⟨h3, hne2⟩
  · exact Or.inl h3
  rcases replaceChar_mem _ _ _ _ h3 with h4 | ⟨h4, hne3⟩
  · exact Or.inl h4
  exact Or.inr ⟨h4, hne3, hne2, hne1⟩

theorem type_clean_lower_fixed (x : PyStr) (c : Char)
    (hc : c ∈ type_clean x) : c.toLower = c := by
  rcases type_clean_char_source x c hc with h | ⟨h, -⟩
  · subst h; decide
  · have := strip_subset _ _ h
    rcases List.mem_map.1 this with ⟨c0, -, he⟩
    rw [← he]
    exact toLower_toLower c0

theorem type_clean_no_sep (x : PyStr) (c : Char)
    (hc : c ∈ type_clean x) : c ≠ '/' ∧ c ≠ ' ' ∧ c ≠ '-' := by
  rcases type_clean_char_source x c hc with h | ⟨-, h⟩
  · subst h; refine ⟨by decide, by decide, by decide⟩
  · exact h

theorem repl_not_ws (a c : Char) (h : ¬ c.isWhitespace) :
    ¬ (if c = a then '_' else c).isWhitespace := by
  by_cases h' : c = a
  · rw [if_pos h']; decide
  · rwa [if_neg h']

theorem type_clean_head_not_ws (x : PyStr) (c : Char)
    (h : (type_clean x).head? = some c) : ¬ c.isWhitespace := by
  unfold type_clean at h
  rw [collapse_head?] at h
  unfold replaceChar at h
  rw [List.head?_map, List.head?_map, List.head?_map] at h
  cases hz : (pyStrip (pyLower x)).head? with
  | none => rw [hz] at h; simp at h
  | some c0 =>
      rw [hz] at h
      simp only [Option.map_some'] at h
      have h0 := strip_head_not_ws _ _ hz
      rw [Option.some.injEq] at h
      rw [← h]
      exact repl_not_ws _ _ (repl_not_ws _ _ (repl_not_ws _ _ h0))

theorem type_clean_getLast_not_ws (x : PyStr) (c : Char)
    (h : (type_clean x).getLast? = some c) : ¬ c.isWhitespace := by
  unfold type_clean at h
  rw [collapse_getLast?] at h
  unfold replaceChar at h
  rw [List.getLast?_map, List.getLast?_map, List.getLast?_map] at h
  cases hz : (pyStrip (pyLower x)).getLast? with
  | none => rw [hz] at h; simp at h
  | some c0 =>
      rw [hz] at h
      simp only [Option.map_some'] at h
      have h0 := strip_getLast_not_ws _ _ hz
      rw [Option.some.injEq] at h
      rw [← h]
      exact repl_not_ws _ _ (repl_not_ws _ _ (repl_not_ws _ _ h0))

theorem type_clean_idem (x : PyStr) :
    type_clean (type_clean x) = type_clean x := by
  have hlow : pyLower (type_clean x) = type_clean x := by
    unfold pyLower
    rw [List.map_congr_left (fun c hc => type_clean_lower_fixed x c hc)]
    exact List.map_id _
  have hstrip : pyStrip (type_clean x) = type_clean x :=
    strip_eq_self _ (type_clean_head_not_ws x) (type_clean_getLast_not_ws x)
  have hr1 : replaceChar '/' '_' (type_clean x) = type_clean x := by
    unfold replaceChar
    rw [List.map_congr_left (fun c hc => if_neg (type_clean_no_sep x c hc).1)]
    exact List.map_id _
  have hr2 : replaceChar ' ' '_' (type_clean x) = type_clean x := by
    unfold replaceChar
    rw [List.map_congr_left (fun c hc => if_neg (type_clean_no_sep x c hc).2.1)]
    exact List.map_id _
  have hr3 : replaceChar '-' '_' (type_clean x) = type_clean x := by
    unfold replaceChar
    rw [List.map_congr_left (fun c hc => if_neg (type_clean_no_sep x c hc).2.2)]
    exact List.map_id _
  have hcol : collapseUnder (type_clean x) = type_clean x := collapse_idem _
  calc type_clean (type_clean x)
      = collapseUnder (replaceChar '-' '_' (replaceChar ' ' '_'
          (replaceChar '/' '_' (pyStrip (pyLower (type_clean x)))))) := rfl
    _ = type_clean x := by rw [hlow, hstrip, hr1, hr2, hr3, hcol]

theorem type_clean_ne_nil (x : PyStr) (c0 : Char) (hc : c0 ∈ x)
    (hnw : ¬ c0.isWhitespace) : type_clean x ≠ [] := by
  have h1 : c0.toLower ∈ pyLower x := List.mem_map_of_mem _ hc
  have h2 : ¬ (c0.toLower).isWhitespace := not_isWhitespace_toLower _ hnw
  have h3 : c0.toLower ∈ pyStrip (pyLower x) := strip_mem _ _ h1 h2
  have hz : pyStrip (pyLower x) ≠ [] := by
    intro hz
    rw [hz] at h3
    simp at h3
  have hw : replaceChar '-' '_' (replaceChar ' ' '_'
      (replaceChar '/' '_' (pyStrip (pyLower x)))) ≠ [] := by
    simpa [replaceChar, List.map_eq_nil_iff] using hz
  exact collapse_ne_nil _ hw

theorem normalize_of_ne_nil (s : PyStr) (h : s ≠ []) :
    normalize_type s = type_clean s := by
  unfold normalize_type
  rw [if_neg h]

/-! Counting: every discovered file is counted exactly once, as processed or
as failed. -/

theorem counts_foldl_files (repo : PyStr) :
    ∀ (files : List (PyStr × Option RawDoc)) (st : AggState),
      (files.foldl (processFile repo) st).files_processed
          + (files.foldl (processFile repo) st).files_failed
        = st.files_processed + st.files_failed + files.length ∧
      (files.foldl (processFile repo) st).files_found = st.files_found
  | [], st => by simp
  | f :: fs, st => by
      have ih := counts_foldl_files repo fs (processFile repo st f)
      rw [List.foldl_cons]
      constructor
      · rw [ih.1]
        cases hf : f.2 <;> simp [processFile, hf] <;> omega
      · rw [ih.2]
        cases hf : f.2 <;> simp [processFile, hf]

theorem counts_processRepo (st : AggState) (r : PyStr × List (PyStr × Option RawDoc))
    (h : st.files_processed + st.files_failed = st.files_found) :
    (processRepo st r).files_processed + (processRepo st r).files_failed
      = (processRepo st r).files_found := by
  unfold processRepo
  have h1 := counts_foldl_files r.1 r.2
    { st with files_found := st.files_found + r.2.length }
  rw [h1.1, h1.2]
  simp
  omega

theorem counts_ingest : ∀ (input : RunInput) (st : AggState),
    st.files_processed + st.files_failed = st.files_found →
    (input.foldl processRepo st).files_processed
        + (input.foldl processRepo st).files_failed
      = (input.foldl processRepo st).files_found
  | [], st, h => h
  | r :: rs, st, h => by
      rw [List.foldl_cons]
      exact counts_ingest rs (processRepo st r) (counts_processRepo st r h)

/-! Association-list lemmas for the groupings. -/

theorem lookup_addToCat : ∀ (l : CatMap) (k : PyStr) (d : ProcDoc) (k' : PyStr),
    lookupCat (addToCat l k d) k'
      = lookupCat l k' ++ (if k' = k then [d] else [])
  | [], k, d, k' => by
      by_cases h : k = k'
      · subst h; simp [addToCat, lookupCat]
      · simp [addToCat, lookupCat, h, Ne.symm h]
  | (c, ds) :: rest, k, d, k' => by
      by_cases hck : c = k
      · subst hck
        by_cases hk' : c = k'
        · subst hk'; simp [addToCat, lookupCat]
        · simp [addToCat, lookupCat, hk', Ne.symm hk']
      · by_cases hck' : c = k'
        · subst hck'
          simp [addToCat, lookupCat, hck, Ne.symm hck]
        · simp only [addToCat, if_neg hck, lookupCat, if_neg hck']
          exact lookup_addToCat rest k d k'

theorem catKeys_addToCat : ∀ (l : CatMap) (k : PyStr) (d : ProcDoc),
    catKeys (addToCat l k d)
      = if k ∈ catKeys l then catKeys l else catKeys l ++ [k]
  | [], k, d => by simp [addToCat, catKeys]
  | (c, ds) :: rest, k, d => by
      by_cases hck : c = k
      · subst hck
        simp [addToCat, catKeys]
      · have hkeys : catKeys (addToCat ((c, ds) :: rest) k d)
            = c :: catKeys (addToCat rest k d) := by
          simp [addToCat, if_neg hck, catKeys]
        rw [hkeys, catKeys_addToCat rest k d,
          show catKeys ((c, ds) :: rest) = c :: catKeys rest from rfl]
        by_cases hmem : k ∈ catKeys rest
        · rw [if_pos hmem, if_pos (List.mem_cons_of_mem c hmem)]
        · rw [if_neg hmem, if_neg ?_]
          · rfl
          · intro hh
            rcases List.mem_cons.1 hh with h1 | h1
            · exact hck h1.symm
            · exact hmem h1

theorem nodup_addToCat (l : CatMap) (k : PyStr) (d : ProcDoc)
    (h : (catKeys l).Nodup) : (catKeys (addToCat l k d)).Nodup := by
  rw [catKeys_addToCat]
  by_cases hmem : k ∈ catKeys l
  · rwa [if_pos hmem]
  · rw [if_neg hmem]
    simp [List.nodup_append, h, hmem]

theorem lookup_eq_nil_of_not_mem : ∀ (l : CatMap) (k : PyStr),
    k ∉ catKeys l → lookupCat l k = []
  | [], _, _ => rfl
  | (c, ds) :: rest, k, h => by
      have hc : c ≠ k := fun hh => h (by simp [catKeys, hh])
      rw [lookupCat, if_neg hc]
      exact lookup_eq_nil_of_not_mem rest k (fun hh => h (by simp [catKeys] at *; tauto))

theorem lookup_perm {l l' : CatMap} (h : l.Perm l') :
    (catKeys l).Nodup → ∀ k, lookupCat l k = lookupCat l' k := by
  induction h with
  | nil => intro _ _; rfl
  | cons x h ih =>
      intro hn k
      obtain ⟨c, ds⟩ := x
      by_cases hc : c = k
      · simp [lookupCat, hc]
      · simp only [lookupCat, if_neg hc]
        exact ih (by simpa [catKeys] using hn.of_cons) k
  | swap x y t =>
      intro hn k
      obtain ⟨c1, ds1⟩ := y
      obtain ⟨c2, ds2⟩ := x
      have hne : c1 ≠ c2 := by
        have hnot := (List.nodup_cons.1 hn).1
        intro hh
        exact hnot (by simp [catKeys, hh])
      by_cases h1 : c1 = k <;> by_cases h2 : c2 = k
      · exact absurd (h1.trans h2.symm) hne
      · simp [lookupCat, h1, h2]
      · simp [lookupCat, h1, h2]
      · simp [lookupCat, h1, h2]
  | trans h1 h2 ih1 ih2 =>
      intro hn k
      rw [ih1 hn k, ih2 ((h1.map Prod.fst).nodup_iff.1 hn) k]

theorem lookup_mapVal (f : List ProcDoc → List ProcDoc) (hf : f [] = []) :
    ∀ (l : CatMap) (k : PyStr),
      lookupCat (l.map (fun ce => (ce.1, f ce.2))) k = f (lookupCat l k)
  | [], k => by simp [lookupCat, hf]
  | (c, ds) :: rest, k => by
      by_cases hc : c = k
      · simp [lookupCat, hc]
      · simp only [List.map_cons, lookupCat, if_neg hc]
        exact lookup_mapVal f hf rest k

theorem catKeys_mapVal (f : List ProcDoc → List ProcDoc) (l : CatMap) :
    catKeys (l.map (fun ce => (ce.1, f ce.2))) = catKeys l := by
  unfold catKeys
  rw [List.map_map]
  rfl

/-! The combined grouping as a function of the finalized per-repository
grouping. -/

theorem lookup_foldl_add :
    ∀ (ds : List ProcDoc) (comb : CatMap) (cat repo k : PyStr),
      lookupCat (ds.foldl (fun cb d => addToCat cb cat (setRepository repo d)) comb) k
        = lookupCat comb k ++ (if k = cat then ds.map (setRepository repo) else [])
  | [], comb, cat, repo, k => by simp
  | d :: ds, comb, cat, repo, k => by
      rw [List.foldl_cons, lookup_foldl_add ds _ cat repo k, lookup_addToCat]
      by_cases h : k = cat <;> simp [h]

theorem nodup_foldl_add :
    ∀ (ds : List ProcDoc) (comb : CatMap) (cat repo : PyStr),
      (catKeys comb).Nodup →
      (catKeys (ds.foldl (fun cb d => addToCat cb cat (setRepository repo d)) comb)).Nodup
  | [], _, _, _, h => h
  | d :: ds, comb, cat, repo, h => by
      rw [List.foldl_cons]
      exact nodup_foldl_add ds _ cat repo (nodup_addToCat _ _ _ h)

theorem lookup_foldl_cats (repo : PyStr) :
    ∀ (cats : CatMap) (comb : CatMap) (k : PyStr),
      (catKeys cats).Nodup →
      lookupCat (cats.foldl (fun cb ce => addListToCombined cb ce.1 repo ce.2) comb) k
        = lookupCat comb k ++ (lookupCat cats k).map (setRepository repo)
  | [], comb, k, _ => by simp [lookupCat]
  | ce :: cats, comb, k, hn => by
      rw [List.foldl_cons]
      rw [lookup_foldl_cats repo cats _ k ((List.nodup_cons.1 hn).2)]
      unfold addListToCombined
      rw [lookup_foldl_add ce.2 comb ce.1 repo k]
      obtain ⟨c, ds⟩ := ce
      by_cases h : c = k
      · subst h
        have hnil : lookupCat cats c = [] :=
          lookup_eq_nil_of_not_mem cats c (List.nodup_cons.1 hn).1
        simp [lookupCat, hnil]
      · have hl : lookupCat ((c, ds) :: cats) k = lookupCat cats k := by
          simp [lookupCat, h]
        rw [hl]
        simp [show ¬ (k = c) from fun hh => h hh.symm]

theorem nodup_foldl_cats (repo : PyStr) :
    ∀ (cats : CatMap) (comb : CatMap),
      (catKeys comb).Nodup →
      (catKeys (cats.foldl (fun cb ce => addListToCombined cb ce.1 repo ce.2) comb)).Nodup
  | [], _, h => h
  | ce :: cats, comb, h => by
      rw [List.foldl_cons]
      exact nodup_foldl_cats repo cats _ (nodup_foldl_add ce.2 comb ce.1 repo h)

theorem lookup_combined_fold :
    ∀ (entries : Org) (comb : CatMap) (k : PyStr),
      (∀ re ∈ entries, (catKeys re.2).Nodup) → (catKeys comb).Nodup →
      lookupCat (entries.foldl addRepoToCombined comb) k
        = lookupCat comb k
          ++ (entries.map (fun re => (lookupCat re.2 k).map (setRepository re.1))).flatten
  | [], comb, k, _, _ => by simp
  | re :: rs, comb, k, hall, hcomb => by
      rw [List.foldl_cons]
      rw [lookup_combined_fold rs (addRepoToCombined comb re) k
        (fun x hx => hall x (List.mem_cons_of_mem _ hx))
        (by unfold addRepoToCombined
            exact nodup_foldl_cats re.1 re.2 comb hcomb)]
      unfold addRepoToCombined
      rw [lookup_foldl_cats re.1 re.2 comb k (hall re (List.mem_cons_self _ _))]
      simp

theorem nodup_combined_fold :
    ∀ (entries : Org) (comb : CatMap),
      (catKeys comb).Nodup →
      (catKeys (entries.foldl addRepoToCombined comb)).Nodup
  | [], _, h => h
  | re :: rs, comb, h => by
      rw [List.foldl_cons]
      exact nodup_combined_fold rs _ (nodup_foldl_cats re.1 re.2 comb h)

/-! Key-distinctness invariant of the ingested grouping. -/

theorem nodup_addToOrg : ∀ (org : Org) (repo cat : PyStr) (d : ProcDoc),
    (∀ re ∈ org, (catKeys re.2).Nodup) →
    ∀ re ∈ addToOrg org repo cat d, (catKeys re.2).Nodup
  | [], repo, cat, d, _ => by
      intro re hre
      simp [addToOrg] at hre
      subst hre
      simp [catKeys]
  | (r, cats) :: rest, repo, cat, d, h => by
      intro re hre
      by_cases hr : r = repo
      · rw [addToOrg] at hre
        rw [if_pos hr] at hre
        rcases List.mem_cons.1 hre with h1 | h1
        · subst h1
          exact nodup_addToCat _ _ _ (h (r, cats) (List.mem_cons_self _ _))
        · exact h re (List.mem_cons_of_mem _ h1)
      · rw [addToOrg] at hre
        rw [if_neg hr] at hre
        rcases List.mem_cons.1 hre with h1 | h1
        · subst h1
          exact h (r, cats) (List.mem_cons_self _ _)
        · exact nodup_addToOrg rest repo cat d
            (fun x hx => h x (List.mem_cons_of_mem _ hx)) re h1

theorem nodup_processFile (repo : PyStr) (st : AggState)
    (f : PyStr × Option RawDoc)
    (h : ∀ re ∈ st.org, (catKeys re.2).Nodup) :
    ∀ re ∈ (processFile repo st f).org, (catKeys re.2).Nodup := by
  cases hf : f.2 with
  | none => simpa [processFile, hf] using h
  | some doc =>
      intro re hre
      rw [processFile] at hre
      simp only [hf] at hre
      exact nodup_addToOrg st.org repo _ _ h re hre

theorem nodup_foldl_files (repo : PyStr) :
    ∀ (files : List (PyStr × Option RawDoc)) (st : AggState),
      (∀ re ∈ st.org, (catKeys re.2).Nodup) →
      ∀ re ∈ (files.foldl (processFile repo) st).org, (catKeys re.2).Nodup
  | [], st, h => h
  | f :: fs, st, h => by
      rw [List.foldl_cons]
      exact nodup_foldl_files repo fs _ (nodup_processFile repo st f h)

theorem nodup_ingest : ∀ (input : RunInput) (st : AggState),
    (∀ re ∈ st.org, (catKeys re.2).Nodup) →
    ∀ re ∈ (input.foldl processRepo st).org, (catKeys re.2).Nodup
  | [], _, h => h
  | r :: rs, st, h => by
      rw [List.foldl_cons]
      exact nodup_ingest rs _ (nodup_foldl_files r.1 r.2 _ h)

theorem ingest_org_nodup (input : RunInput) :
    ∀ re ∈ (ingestAll input).org, (catKeys re.2).Nodup :=
  nodup_ingest input initState (by simp [initState])

/-! Final assembly lemmas. -/

theorem nodup_finalizeOrg (org : Org)
    (hall : ∀ re ∈ org, (catKeys re.2).Nodup) :
    ∀ re ∈ finalizeOrg org, (catKeys re.2).Nodup := by
  intro re hre
  unfold finalizeOrg at hre
  rcases List.mem_map.1 hre with ⟨re0, hre0, heq⟩
  rw [← heq]
  show (catKeys (sortRepoCats re0.2)).Nodup
  unfold sortRepoCats
  rw [catKeys_mapVal]
  have hperm : (catKeys (List.insertionSort byCatKey re0.2)).Perm (catKeys re0.2) :=
    (List.perm_insertionSort byCatKey re0.2).map Prod.fst
  exact hperm.nodup_iff.2 (hall re0 hre0)

theorem nodup_combinedRaw (org : Org) : (catKeys (combinedRaw org)).Nodup := by
  unfold combinedRaw
  exact nodup_combined_fold _ _ (by simp [catKeys])

theorem lookup_finalCombined (org : Org) (k : PyStr) :
    lookupCat (finalCombined org) k
      = List.insertionSort byRepoThenName (lookupCat (combinedRaw org) k) := by
  unfold finalCombined
  rw [lookup_mapVal _ rfl]
  congr 1
  have hnod : (catKeys (List.insertionSort byCatKey (combinedRaw org))).Nodup :=
    (((List.perm_insertionSort byCatKey (combinedRaw org)).map Prod.fst).nodup_iff).2
      (nodup_combinedRaw org)
  exact lookup_perm (List.perm_insertionSort byCatKey (combinedRaw org)) hnod k

/-! Claim theorems. -/

/-- C1 counterexample: the raw type `"anime movie"` contains the keyword
`"anime"` in its lower-cased form, yet `normalize_type` does not return
`"anime"`: it returns the sanitized string `"anime_movie"`.  The code has no
keyword cascade at all. -/
theorem C1_counterexample :
    ("anime".toList <:+: pyLower ("anime movie".toList)) ∧
    normalize_type ("anime movie".toList) = "anime_movie".toList ∧
    normalize_type ("anime movie".toList) ≠ "anime".toList := by
  decide

/-- C1 (amended): `normalize_type` applies no substring keyword tests at all;
every non-empty raw type string — including strings containing `"anime"`,
`"manga"`, `"novel"`, `"movie"`, or `"show"` — is mapped to its sanitized form
`type_clean` (lower-cased, trimmed, separators replaced by underscores, runs
of underscores collapsed). -/
theorem C1_amended_thm (s : PyStr) (h : s ≠ []) :
    normalize_type s = type_clean s :=
  normalize_of_ne_nil s h

/-- C1 witness: the amended theorem applied at `"anime movie"`. -/
theorem C1_amended_witness :
    ("anime movie".toList ≠ []) ∧
    normalize_type ("anime movie".toList) = type_clean ("anime movie".toList) :=
  ⟨by decide, C1_amended_thm ("anime movie".toList) (by decide)⟩

/-- C2: after finalization, every per-(repository, category) document list is
sorted ascending by the case-insensitive `sourceName` key (missing names are
the empty string, which sorts first under the lexicographic order). -/
theorem C2_sorted (input : RunInput) (r : PyStr) (cats : CatMap)
    (c : PyStr) (ds : List ProcDoc)
    (h1 : (r, cats) ∈ finalGrouping input) (h2 : (c, ds) ∈ cats) :
    List.Sorted bySourceName ds := by
  unfold finalGrouping finalizeOrg at h1
  rcases List.mem_map.1 h1 with ⟨re0, _, heq⟩
  have hcats : cats = sortRepoCats re0.2 := by
    have := congrArg Prod.snd heq
    simpa using this.symm
  rw [hcats] at h2
  unfold sortRepoCats at h2
  rcases List.mem_map.1 h2 with ⟨ce, _, heq2⟩
  have hds : ds = List.insertionSort bySourceName ce.2 := by
    have := congrArg Prod.snd heq2
    simpa using this.symm
  rw [hds]
  exact List.sorted_insertionSort bySourceName ce.2

/-- C2 witness: for the concrete two-document run `wInput`, the finalized
`other` list of repository `r` is `[wP2, wP1]` (name `"A"` before `"b"`), and
the theorem yields its sortedness. -/
theorem C2_witness :
    (("r".toList, [("other".toList, [wP2, wP1])]) ∈ finalGrouping wInput ∧
      ("other".toList, [wP2, wP1]) ∈ [("other".toList, [wP2, wP1])]) ∧
    List.Sorted bySourceName [wP2, wP1] :=
  ⟨⟨by decide, by decide⟩,
    C2_sorted wInput "r".toList [("other".toList, [wP2, wP1])]
      "other".toList [wP2, wP1] (by decide) (by decide)⟩

/-- C3 counterexample: in the run `cInput`, document `cQ2` has no
`sourceName` but a `name` field `"z"`; the code's combined sort (line 246)
falls back to `name`, so the produced combined `other` list `[cQ1, cQ2]` is
not sorted by the claimed key, which treats a missing `sourceName` as the
empty string. -/
theorem C3_counterexample :
    lookupCat (finalCombinedOf cInput) ("other".toList) = [cQ1, cQ2] ∧
    ¬ List.Sorted byRepoThenNameSpec [cQ1, cQ2] := by
  decide

/-- C3 (amended): after finalization, every combined per-category list is
ordered primarily by repository id ascending and secondarily by the
case-insensitive `sourceName`, where a missing `sourceName` falls back to the
document's `name` field (and only then to the empty string). -/
theorem C3_amended_thm (input : RunInput) (c : PyStr) (ds : List ProcDoc)
    (h : (c, ds) ∈ finalCombinedOf input) :
    List.Sorted byRepoThenName ds := by
  unfold finalCombinedOf finalCombined at h
  rcases List.mem_map.1 h with ⟨ce, _, heq⟩
  have hds : ds = List.insertionSort byRepoThenName ce.2 := by
    have := congrArg Prod.snd heq
    simpa using this.symm
  rw [hds]
  exact List.sorted_insertionSort byRepoThenName ce.2

/-- C3 witness: the amended theorem applied to the combined `other` list of
the concrete run `cInput`. -/
theorem C3_amended_witness :
    (("other".toList, [cQ1, cQ2]) ∈ finalCombinedOf cInput) ∧
    List.Sorted byRepoThenName [cQ1, cQ2] :=
  ⟨by decide,
    C3_amended_thm cInput "other".toList [cQ1, cQ2] (by decide)⟩

/-- C4: for every category key, the combined list holds exactly the union
with multiplicity of the per-repository lists: its length is the sum of the
per-repository lengths for that category. -/
theorem C4_combined_length (input : RunInput) (cat : PyStr) :
    (lookupCat (finalCombinedOf input) cat).length
      = ((finalGrouping input).map
          (fun re => (lookupCat re.2 cat).length)).sum := by
  have hallF : ∀ re ∈ finalizeOrg (ingestAll input).org, (catKeys re.2).Nodup :=
    nodup_finalizeOrg _ (ingest_org_nodup input)
  unfold finalCombinedOf
  rw [lookup_finalCombined _ cat, List.length_insertionSort]
  unfold combinedRaw
  rw [lookup_combined_fold (finalizeOrg (ingestAll input).org) [] cat hallF
    (by simp [catKeys])]
  rw [show lookupCat [] cat = [] from rfl, List.nil_append, List.length_flatten,
    List.map_map]
  unfold finalGrouping
  congr 1
  apply List.map_congr_left
  intro re _
  simp

/-- C5: for a complete, uninterrupted run over any input,
`files_processed + files_failed = files_found`: every discovered JSON file is
counted exactly once, either as processed or as failed. -/
theorem C5_counts (input : RunInput) :
    (ingestAll input).files_processed + (ingestAll input).files_failed
      = (ingestAll input).files_found :=
  counts_ingest input initState rfl

/-- C6: for a document whose raw `type` is absent (the `get` default `"other"`
applies) or is the empty string, the computed category is `"other"`. -/
theorem C6_other (d : RawDoc) (h : d.type? = none ∨ d.type? = some []) :
    normalize_type (sourceTypeOf d) = "other".toList := by
  rcases h with h | h <;> simp only [sourceTypeOf, h, Option.getD] <;> decide

/-- C6 witness: a document with no `type` field lands in category `other`. -/
theorem C6_witness :
    ((⟨none, none, none, 0⟩ : RawDoc).type? = none ∨
      (⟨none, none, none, 0⟩ : RawDoc).type? = some []) ∧
    normalize_type (sourceTypeOf (⟨none, none, none, 0⟩ : RawDoc))
      = "other".toList :=
  ⟨Or.inl rfl, C6_other ⟨none, none, none, 0⟩ (Or.inl rfl)⟩

/-- C7: for every non-empty raw type string in which no classification
keyword of the specification matches, `normalize_type` returns the sanitized
string `type_clean` verbatim (it is never dropped or mapped to a fixed
category). -/
theorem C7_passthrough (s : PyStr) (h1 : s ≠ []) (_h2 : ¬ kwMatch s) :
    normalize_type s = type_clean s :=
  normalize_of_ne_nil s h1

/-- C7 witness: the theorem applied at the keyword-free string `"music"`. -/
theorem C7_witness :
    ("music".toList ≠ [] ∧ ¬ kwMatch ("music".toList)) ∧
    normalize_type ("music".toList) = type_clean ("music".toList) :=
  ⟨⟨by decide, by decide⟩,
    C7_passthrough ("music".toList) (by decide) (by decide)⟩

/-- C8 counterexample: `normalize_type` is not idempotent on the whitespace
string `" "`: it maps `" "` to the empty string, which the second application
maps to `"other"`. -/
theorem C8_counterexample :
    normalize_type (normalize_type (" ".toList)) ≠ normalize_type (" ".toList) := by
  decide

/-- C8 (amended): `normalize_type` is idempotent on every raw type string
that is empty or contains at least one non-whitespace character; only the
non-empty all-whitespace strings violate idempotence. -/
theorem C8_amended_thm (s : PyStr)
    (h : s = [] ∨ ∃ c ∈ s, ¬ c.isWhitespace) :
    normalize_type (normalize_type s) = normalize_type s := by
  rcases h with h | ⟨c, hc, hnw⟩
  · subst h; decide
  · have hne : s ≠ [] := List.ne_nil_of_mem hc
    rw [normalize_of_ne_nil s hne,
      normalize_of_ne_nil _ (type_clean_ne_nil s c hc hnw)]
    exact type_clean_idem s

/-- C8 witness: the amended theorem applied at `"Anime Movie"`. -/
theorem C8_amended_witness :
    ("Anime Movie".toList = [] ∨ ∃ c ∈ "Anime Movie".toList, ¬ c.isWhitespace) ∧
    normalize_type (normalize_type ("Anime Movie".toList))
      = normalize_type ("Anime Movie".toList) :=
  ⟨by decide, C8_amended_thm ("Anime Movie".toList) (by decide)⟩

/-- C9: for every non-empty, all-whitespace raw type string, the emptiness
test of line 24 fires before the trimming of line 28, so `normalize_type`
returns the empty string as the category key, not `"other"`. -/
theorem C9_ws_empty (s : PyStr) (h1 : s ≠ [])
    (h2 : ∀ c ∈ s, c.isWhitespace) :
    normalize_type s = [] ∧ normalize_type s ≠ "other".toList := by
  have heq : normalize_type s = [] := by
    rw [normalize_of_ne_nil s h1]
    unfold type_clean
    rw [strip_eq_nil_of_all_ws (pyLower s) ?_]
    · rfl
    · intro c hc
      rcases List.mem_map.1 hc with ⟨c0, hc0, he⟩
      rw [← he, toLower_of_isWhitespace c0 (h2 c0 hc0)]
      exact h2 c0 hc0
  refine ⟨heq, ?_⟩
  rw [heq]
  decide

/-- C9 witness: the theorem applied at the one-space string `" "`. -/
theorem C9_witness :
    (" ".toList ≠ [] ∧ ∀ c ∈ " ".toList, c.isWhitespace) ∧
    (normalize_type (" ".toList) = [] ∧
      normalize_type (" ".toList) ≠ "other".toList) :=
  ⟨⟨by decide, by decide⟩, C9_ws_empty (" ".toList) (by decide) (by decide)⟩

/-- C10: the attached `_metadata.original_type` is the string `"other"` (the
`get` default) for documents lacking a `type` field, and the raw type string
unmodified for documents with one. -/
theorem C10_original_type (repo path : PyStr) (d : RawDoc) :
    (d.type? = none →
      (attachMetadata repo path d).meta.original_type = "other".toList) ∧
    (∀ t, d.type? = some t →
      (attachMetadata repo path d).meta.original_type = t) := by
  constructor
  · intro h
    simp [attachMetadata, sourceTypeOf, h]
  · intro t h
    simp [attachMetadata, sourceTypeOf, h]

/-- C10 witness: both branches of the theorem applied to concrete documents. -/
theorem C10_witness :
    (attachMetadata "r".toList "p".toList (⟨none, none, none, 0⟩ : RawDoc)).meta.original_type
        = "other".toList ∧
    (attachMetadata "r".toList "p".toList
        (⟨some "TV".toList, none, none, 0⟩ : RawDoc)).meta.original_type
      = "TV".toList :=
  ⟨(C10_original_type "r".toList "p".toList ⟨none, none, none, 0⟩).1 rfl,
    (C10_original_type "r".toList "p".toList ⟨some "TV".toList, none, none, 0⟩).2
      ("TV".toList) rfl⟩
